import Mathlib

/-!
# update_supabase_dns: rewriting placeholder host names in a YAML node tree

A shallow embedding of `supabase/dns-config/update_supabase_dns.go`.

* `Node` mirrors `yaml.Node` of `gopkg.in/yaml.v3`, the tree the program parses its input into.
  The `Alias` pointer of `yaml.Node` is left out: the program neither reads nor writes it, and
  the children reachable through `Content` form a tree.
* Go strings are modelled by Lean strings; the two placeholder tokens are ASCII, so matching
  on characters and matching on bytes agree on well-formed UTF-8 text.
* An index-out-of-range run-time panic is modelled by `none`.
* `log.Printf` only writes a diagnostic line and does not touch the tree; it is not modelled.
-/

namespace UpdateSupabaseDNS

/-! ## The data model -/

/-- `type KeyPath []string`: a path of mapping keys. -/
abbrev KeyPath := List String

/-- The `yaml.Node` struct of yaml.v3 (`Kind` and `Style` are `uint32` bit flags there). -/
structure Node where
  Kind : Nat
  Style : Nat
  Tag : String
  Value : String
  Anchor : String
  Content : List Node
  HeadComment : String
  LineComment : String
  FootComment : String
  Line : Nat
  Column : Nat

/-- `yaml.DocumentNode` (`1 << 0`). -/
def DocumentNode : Nat := 1
/-- `yaml.SequenceNode` (`1 << 1`). -/
def SequenceNode : Nat := 2
/-- `yaml.MappingNode` (`1 << 2`). -/
def MappingNode : Nat := 4
/-- `yaml.ScalarNode` (`1 << 3`). -/
def ScalarNode : Nat := 8
/-- `yaml.AliasNode` (`1 << 4`). -/
def AliasNode : Nat := 16

/-- `yaml.TaggedStyle` (`1 << 0`). -/
def TaggedStyle : Nat := 1
/-- `yaml.DoubleQuotedStyle` (`1 << 1`). -/
def DoubleQuotedStyle : Nat := 2
/-- `yaml.SingleQuotedStyle` (`1 << 2`). -/
def SingleQuotedStyle : Nat := 4

/-- The variable `targetFields`: every YAML path holding a URL to replace. -/
def targetFields : List KeyPath :=
  [ ["studio", "environment", "SUPABASE_PUBLIC_URL"],
    ["auth", "environment", "GOTRUE_SITE_URL"],
    ["auth", "environment", "API_EXTERNAL_URL"],
    ["rest", "environment", "POSTGREST_SITE_URL"],
    ["realtime", "environment", "PORTAL_URL"],
    ["storage", "environment", "FILE_STORAGE_BACKEND_URL"],
    ["kong", "environment", "SUPABASE_PUBLIC_URL"],
    ["kong", "environment", "SUPABASE_STUDIO_URL"] ]

/-- First placeholder token, the literal of line 44. -/
def placeholderA : String := "REPLACEME.upcloudlb.com"

/-- Second placeholder token, the literal of line 45. -/
def placeholderB : String := "example.com"

/-! ## `strings.ReplaceAll` -/

/-- Left-to-right scan of `strings.Replace` for a non-empty `old`: the first argument counts
the characters of the occurrence just matched that still have to be skipped, so that the
occurrences replaced do not overlap. -/
def replaceGo (old new : List Char) : Nat → List Char → List Char
  | _, [] => []
  | k + 1, _ :: cs => replaceGo old new k cs
  | 0, c :: cs =>
    if old <+: (c :: cs) then new ++ replaceGo old new (old.length - 1) cs
    else c :: replaceGo old new 0 cs

/-- `strings.ReplaceAll(s, old, new)`: every non-overlapping occurrence of `old` in `s`,
taken from the left, is replaced by `new`; an empty `old` matches before every character
and at the end. -/
def ReplaceAll (s old new : String) : String :=
  if old.data = [] then ⟨new.data ++ s.data.flatMap (fun c => c :: new.data)⟩
  else ⟨replaceGo old.data new.data 0 s.data⟩

/-- Substring test, as `strings.Contains(s, sub)`. -/
def Contains (s sub : String) : Prop := sub.data <:+: s.data

instance (s sub : String) : Decidable (Contains s sub) := by
  unfold Contains; infer_instance

/-! ## `findAndUpdateValue` and the rewrite pass of `main` -/

/-- The two substitutions of lines 44 and 45, the second on the result of the first. -/
def replaced (value fullDNS : String) : String :=
  ReplaceAll (ReplaceAll value placeholderA fullDNS) placeholderB fullDNS

/-- Lines 43 to 49: the target field `valNode` is rewritten when it is a `!!str` scalar. -/
def updateTarget (valNode : Node) (fullDNS : String) : Node :=
  if valNode.Kind = ScalarNode ∧ valNode.Tag = "!!str" then
    { valNode with Value := replaced valNode.Value fullDNS, Style := DoubleQuotedStyle }
  else valNode

/-- The loop of lines 36 to 55 over `node.Content`, two children at a time; `descend` is the
recursive call of line 52 on `path[1:]`. A child list of odd length panics at
`node.Content[i+1]`, an empty path panics at `path[0]`. -/
def updatePairs (descend : Node → Option Node) (path : KeyPath) (fullDNS : String) :
    List Node → Option (List Node)
  | [] => some []
  | [_] => none
  | keyNode :: valNode :: rest =>
    match path with
    | [] => none
    | seg :: _ =>
      if keyNode.Value = seg then
        if path.length = 1 then
          (updatePairs descend path fullDNS rest).map
            (fun r => keyNode :: updateTarget valNode fullDNS :: r)
        else
          (descend valNode).bind (fun v =>
            (updatePairs descend path fullDNS rest).map (fun r => keyNode :: v :: r))
      else
        (updatePairs descend path fullDNS rest).map (fun r => keyNode :: valNode :: r)

/-- The function `findAndUpdateValue(node, path, fullDNS)`; the tree after the in-place update
is returned, `none` stands for a panic. The recursion follows the path, which line 52
shortens by one segment. With an empty path the loop stops at `path[0]` before line 52. -/
def findAndUpdateValue : Node → KeyPath → String → Option Node
  | node, [], fullDNS =>
    if node.Kind ≠ MappingNode then some node
    else (updatePairs (fun _ => none) [] fullDNS node.Content).map
      (fun c => { node with Content := c })
  | node, seg :: rest, fullDNS =>
    if node.Kind ≠ MappingNode then some node
    else (updatePairs (fun v => findAndUpdateValue v rest fullDNS) (seg :: rest) fullDNS
      node.Content).map (fun c => { node with Content := c })

/-- The loop of lines 98 to 100 for a list of paths. -/
def applyPaths (fullDNS : String) : List KeyPath → Node → Option Node
  | [], doc => some doc
  | path :: paths, doc => (findAndUpdateValue doc path fullDNS).bind (applyPaths fullDNS paths)

/-- Line 77 and lines 98 to 100 of `main`: `fullDNS := dnsPrefix + ".upcloudlb.com"`, then
`findAndUpdateValue(doc, path, fullDNS)` for every path of `targetFields`, in order. -/
def rewritePass (doc : Node) (dnsPrefix : String) : Option Node :=
  applyPaths (dnsPrefix ++ ".upcloudlb.com") targetFields doc

/-! ## Vocabulary for the statements -/

/-- Every field of a node apart from its children. -/
def Node.fields (n : Node) : Node := { n with Content := [] }

/-- The node found from `n` by following child indices. -/
def nodeAt : Node → List Nat → Option Node
  | n, [] => some n
  | n, i :: a => (n.Content[i]?).bind (fun c => nodeAt c a)

/-- The key path of the node at an address: every step must go from a mapping node to one of
its values (an odd child), and contributes the `Value` of the key node just before it. -/
def keyPathAt : Node → List Nat → Option KeyPath
  | _, [] => some []
  | n, i :: a =>
    if n.Kind = MappingNode ∧ i % 2 = 1 then
      match n.Content[i - 1]?, n.Content[i]? with
      | some k, some v => (keyPathAt v a).map (fun q => k.Value :: q)
      | _, _ => none
    else none

mutual
/-- Every mapping node of the tree has an even number of children. -/
def evenMappings : Node → Bool
  | ⟨k, _, _, _, _, c, _, _, _, _, _⟩ =>
    (k != MappingNode || c.length % 2 == 0) && evenMappingsList c
/-- The check `evenMappings` on every node of a list. -/
def evenMappingsList : List Node → Bool
  | [] => true
  | n :: ns => evenMappings n && evenMappingsList ns
end

/-- A document tree as the YAML parser builds it: the children of a mapping node are
alternating keys and values. -/
def WellFormed (n : Node) : Prop := evenMappings n = true

instance (n : Node) : Decidable (WellFormed n) := by
  unfold WellFormed; infer_instance

/-- Apply `f key value` to every value of a list of alternating keys and values. -/
def mapValues (f : Node → Node → Node) : List Node → List Node
  | k :: v :: rest => k :: f k v :: mapValues f rest
  | l => l

/-- The tree `findAndUpdateValue` leaves behind when it does not panic. -/
def updated : Node → KeyPath → String → Node
  | node, [], _ => node
  | node, seg :: rest, fullDNS =>
    if node.Kind ≠ MappingNode then node
    else
      let content := mapValues (fun k v =>
        if k.Value = seg then
          (if rest = [] then updateTarget v fullDNS else updated v rest fullDNS)
        else v) node.Content
      { node with Content := content }

/-- The tree `applyPaths` leaves behind when it does not panic. -/
def updatedAll (fullDNS : String) : List KeyPath → Node → Node
  | [], doc => doc
  | path :: paths, doc => updatedAll fullDNS paths (updated doc path fullDNS)

/-- The calls of line 52 made by the loop of lines 36 to 55: for every pair whose key matches
`path[0]` while `len(path) != 1`, the argument `path[1:]` of the call, followed by the
calls made inside it (`calls`). -/
def callsInPairs (calls : Node → List KeyPath) (path : KeyPath) : List Node → List KeyPath
  | keyNode :: valNode :: rest =>
    match path with
    | [] => []
    | seg :: _ =>
      if keyNode.Value = seg then
        if path.length = 1 then callsInPairs calls path rest
        else (path.drop 1 :: calls valNode) ++ callsInPairs calls path rest
      else callsInPairs calls path rest
  | _ => []

/-- The `path` argument of every recursive call (line 52) that
`findAndUpdateValue(node, path, _)` makes, directly or inside another call, in the order of
the calls; a panic is not taken into account, so that the list also holds the calls a run
without the panic would go on to make. -/
def recursiveCalls : Node → KeyPath → List KeyPath
  | _, [] => []
  | node, seg :: rest =>
    if node.Kind ≠ MappingNode then []
    else callsInPairs (fun v => recursiveCalls v rest) (seg :: rest) node.Content

/-- No proper non-empty beginning of `old` is also an end of `old`: two occurrences of
`old` in a text cannot overlap. -/
def Unbordered (old : List Char) : Prop :=
  ∀ k < old.length, 0 < k → old.take k ≠ old.drop (old.length - k)

instance (old : List Char) : Decidable (Unbordered old) := by
  unfold Unbordered; infer_instance

/-! ## Sample documents -/

/-- A `!!str` scalar node with the given style and value. -/
def strScalar (style : Nat) (value : String) : Node :=
  ⟨ScalarNode, style, "!!str", value, "", [], "", "", "", 0, 0⟩

/-- A plain `!!int` scalar node. -/
def intScalar (value : String) : Node :=
  ⟨ScalarNode, 0, "!!int", value, "", [], "", "", "", 0, 0⟩

/-- A block mapping node with the given alternating keys and values. -/
def mapping (content : List Node) : Node :=
  ⟨MappingNode, 0, "!!map", "", "", content, "", "", "", 0, 0⟩

/-- The document whose only entry is `kong.environment.SUPABASE_PUBLIC_URL`, holding the
scalar `url` in the given style. -/
def kongDoc (style : Nat) (url : String) : Node :=
  mapping [strScalar 0 "kong", mapping [strScalar 0 "environment",
    mapping [strScalar 0 "SUPABASE_PUBLIC_URL", strScalar style url]]]

/-- A mapping in which the key `a` occurs twice. -/
def dupDoc : Node :=
  mapping [strScalar 0 "a", strScalar 0 "example.com", strScalar 0 "a", strScalar 0 "example.com"]

/-- The document `a: 1`, with an integer value. -/
def intDoc : Node := mapping [strScalar 0 "a", intScalar "1"]

/-- A mapping in which the key `a` occurs twice, first with the integer `1`, then with the
string `http://example.com`. -/
def dupMixed : Node :=
  mapping [strScalar 0 "a", intScalar "1", strScalar 0 "a", strScalar 0 "http://example.com"]

/-- The document with `SUPABASE_PUBLIC_URL: http://REPLACEME.upcloudlb.com` (single-quoted)
and `OTHER_URL: http://example.com` (plain) under `kong.environment`: a target and a scalar
that is no target. -/
def sampleDoc : Node :=
  mapping [strScalar 0 "kong", mapping [strScalar 0 "environment",
    mapping [strScalar 0 "SUPABASE_PUBLIC_URL",
      strScalar SingleQuotedStyle "http://REPLACEME.upcloudlb.com",
      strScalar 0 "OTHER_URL", strScalar 0 "http://example.com"]]]

/-! ## Facts about the scan of `strings.ReplaceAll` -/

theorem replaceGo_skip (old new : List Char) (k : Nat) (s : List Char) :
    replaceGo old new k s = replaceGo old new 0 (s.drop k) := by
  induction s generalizing k with
  | nil => cases k <;> simp [replaceGo]
  | cons c cs ih =>
    cases k with
    | zero => simp
    | succ k => simp [replaceGo, ih k]

theorem replaceGo_nil (old new : List Char) (k : Nat) : replaceGo old new k [] = [] := by
  cases k <;> simp [replaceGo]

theorem replaceGo_of_isPrefix (old new s : List Char) (hold : old ≠ []) (h : old <+: s) :
    replaceGo old new 0 s = new ++ replaceGo old new 0 (s.drop old.length) := by
  cases s with
  | nil => simp_all
  | cons c cs =>
    have hl : old.length - 1 + 1 = old.length := by
      have := List.length_pos.mpr hold; omega
    rw [replaceGo, if_pos h, replaceGo_skip old new (old.length - 1) cs]
    conv_rhs => rw [← hl, List.drop_succ_cons]

theorem replaceGo_of_not_isPrefix (old new : List Char) (c : Char) (cs : List Char)
    (h : ¬ old <+: c :: cs) :
    replaceGo old new 0 (c :: cs) = c :: replaceGo old new 0 cs := by
  rw [replaceGo, if_neg h]

theorem replaceGo_of_not_isInfix (old new s : List Char) (h : ¬ old <:+: s) :
    replaceGo old new 0 s = s := by
  induction s with
  | nil => rfl
  | cons c cs ih =>
    have h1 : ¬ old <+: c :: cs := fun hp => h hp.isInfix
    have h2 : ¬ old <:+: cs := fun hi => h (List.infix_cons hi)
    rw [replaceGo_of_not_isPrefix _ _ _ _ h1, ih h2]

/-- Replacement count bookkeeping. -/
theorem replaceGo_measure (old new : List Char) (hold : old ≠ []) :
    ∀ (n : Nat) (s : List Char), s.length ≤ n → ∃ k : Nat, (k = 0 ↔ ¬ old <:+: s) ∧
      (replaceGo old new 0 s).length + k * old.length = s.length + k * new.length ∧
      ∀ c : Char, (replaceGo old new 0 s).count c + k * old.count c
        = s.count c + k * new.count c := by
  intro n
  induction n with
  | zero =>
    intro s hs
    have : s = [] := List.length_eq_zero.mp (Nat.le_zero.mp hs)
    subst this
    refine ⟨0, ?_, by simp [replaceGo], by simp [replaceGo]⟩
    simp [hold]
  | succ n ih =>
    intro s hs
    cases s with
    | nil =>
      refine ⟨0, ?_, by simp [replaceGo], by simp [replaceGo]⟩
      simp [hold]
    | cons c cs =>
      by_cases hp : old <+: c :: cs
      · have hlen : 0 < old.length := List.length_pos.mpr hold
        obtain ⟨t, ht⟩ := hp
        have hdrop : (c :: cs).drop old.length = t := by
          rw [← ht]; simp
        have htl : t.length ≤ n := by
          have := congrArg List.length ht
          simp at this hs; omega
        obtain ⟨k, -, hk2, hk3⟩ := ih t htl
        refine ⟨k + 1, ?_, ?_, ?_⟩
        · simp only [Nat.succ_ne_zero, false_iff, not_not]
          exact ⟨[], t, by simpa using ht⟩
        · rw [replaceGo_of_isPrefix old new _ hold ⟨t, ht⟩, hdrop, ← ht]
          simp only [List.length_append]
          rw [Nat.add_mul, Nat.add_mul]; omega
        · intro ch
          rw [replaceGo_of_isPrefix old new _ hold ⟨t, ht⟩, hdrop, ← ht]
          simp only [List.count_append]
          have := hk3 ch
          rw [Nat.add_mul, Nat.add_mul]; omega
      · have hcs : cs.length ≤ n := by simp at hs; omega
        obtain ⟨k, hk1, hk2, hk3⟩ := ih cs hcs
        refine ⟨k, ?_, ?_, ?_⟩
        · rw [hk1, List.infix_cons_iff]; simp [hp]
        · rw [replaceGo_of_not_isPrefix _ _ _ _ hp]
          simp only [List.length_cons]; omega
        · intro ch
          rw [replaceGo_of_not_isPrefix _ _ _ _ hp]
          have := hk3 ch
          simp only [List.count_cons]; omega

theorem replaceGo_fixed (old new : List Char) (hlen : new.length = old.length) :
    ∀ s : List Char, replaceGo old new 0 s = s → old <:+: s → new = old := by
  intro s
  induction s with
  | nil =>
    intro _ hi
    have : old = [] := List.eq_nil_of_infix_nil hi
    subst this
    exact List.length_eq_zero.mp (by simpa using hlen)
  | cons c cs ih =>
    intro hfix hi
    by_cases hp : old <+: c :: cs
    · rw [replaceGo, if_pos hp] at hfix
      have h1 : new <+: c :: cs := ⟨_, hfix⟩
      exact (List.prefix_of_prefix_length_le h1 hp (le_of_eq hlen)).eq_of_length hlen
    · rw [replaceGo_of_not_isPrefix _ _ _ _ hp] at hfix
      have hi2 : old <:+: cs := by
        rcases List.infix_cons_iff.mp hi with h | h
        · exact absurd h hp
        · exact h
      exact ih (List.cons.inj hfix).2 hi2

theorem isPrefix_append_of_unbordered (old : List Char) (hub : Unbordered old)
    (s t : List Char) (hs : s ≠ []) (h : old <+: s ++ (old ++ t)) : old <+: s := by
  by_cases hlen : old.length ≤ s.length
  · exact List.prefix_of_prefix_length_le h (List.prefix_append s _) hlen
  · exfalso
    have hlen : s.length < old.length := Nat.lt_of_not_le hlen
    have hs1 : s <+: old :=
      List.prefix_of_prefix_length_le (List.prefix_append s _) h (Nat.le_of_lt hlen)
    obtain ⟨u, hu⟩ := hs1
    have hul : u.length = old.length - s.length := by
      have := congrArg List.length hu; simp at this; omega
    have hspos : 0 < s.length := List.length_pos.mpr hs
    -- `u` begins `old ++ t`
    have h2 : u <+: old ++ t := by
      obtain ⟨w, hw⟩ := h
      rw [← hu, List.append_assoc] at hw
      have := List.append_cancel_left hw
      exact ⟨w, by rw [hu] at this; exact this⟩
    have h3 : u <+: old :=
      List.prefix_of_prefix_length_le h2 (List.prefix_append old t) (by omega)
    have h4 : old.take u.length = u := by
      obtain ⟨w, hw⟩ := h3
      rw [← hw]; simp
    have h5 : old.drop (old.length - u.length) = u := by
      have : old.length - u.length = s.length := by omega
      rw [this, ← hu]; simp
    exact hub u.length (by omega) (by omega) (by rw [h4, h5])

theorem replaceGo_append_old (old new : List Char) (hold : old ≠ []) (hub : Unbordered old)
    (t : List Char) :
    ∀ (n : Nat) (s : List Char), s.length ≤ n →
      replaceGo old new 0 (s ++ (old ++ t))
        = replaceGo old new 0 s ++ (new ++ replaceGo old new 0 t) := by
  intro n
  induction n with
  | zero =>
    intro s hs
    have : s = [] := List.length_eq_zero.mp (Nat.le_zero.mp hs)
    subst this
    rw [List.nil_append, replaceGo_of_isPrefix old new _ hold (List.prefix_append old t)]
    simp [replaceGo_nil]
  | succ n ih =>
    intro s hs
    cases s with
    | nil =>
      rw [List.nil_append, replaceGo_of_isPrefix old new _ hold (List.prefix_append old t)]
      simp [replaceGo_nil]
    | cons c cs =>
      by_cases hp : old <+: c :: cs
      · have hp2 : old <+: (c :: cs) ++ (old ++ t) := hp.trans (List.prefix_append _ _)
        obtain ⟨r, hr⟩ := hp
        have hrl : r.length ≤ n := by
          have := congrArg List.length hr
          have := List.length_pos.mpr hold
          simp at * ; omega
        rw [replaceGo_of_isPrefix old new _ hold hp2,
          replaceGo_of_isPrefix old new _ hold ⟨r, hr⟩, ← hr]
        simp only [List.append_assoc, List.drop_left]
        rw [ih r hrl]
      · have hp2 : ¬ old <+: c :: (cs ++ (old ++ t)) := fun h =>
          hp (isPrefix_append_of_unbordered old hub (c :: cs) t (by simp) h)
        have hcs : cs.length ≤ n := by simp at hs; omega
        rw [List.cons_append, replaceGo_of_not_isPrefix _ _ _ _ hp2,
          replaceGo_of_not_isPrefix _ _ _ _ hp, ih cs hcs]
        simp

/-! ## Facts about `ReplaceAll` and the two substitutions -/

theorem ReplaceAll_data (s old new : String) (h : old.data ≠ []) :
    (ReplaceAll s old new).data = replaceGo old.data new.data 0 s.data := by
  simp [ReplaceAll, h]

theorem ReplaceAll_of_not_contains (s old new : String) (h : ¬ Contains s old) :
    ReplaceAll s old new = s := by
  have hne : old.data ≠ [] := by
    intro h0
    apply h
    unfold Contains
    rw [h0]
    exact List.nil_infix
  apply String.ext
  rw [ReplaceAll_data _ _ _ hne]
  exact replaceGo_of_not_isInfix _ _ _ h

theorem ReplaceAll_append_old (s t old new : String) (hne : old.data ≠ [])
    (hub : Unbordered old.data) :
    ReplaceAll (s ++ old ++ t) old new = ReplaceAll s old new ++ new ++ ReplaceAll t old new := by
  apply String.ext
  simp only [String.data_append, ReplaceAll_data _ _ _ hne, List.append_assoc]
  exact replaceGo_append_old old.data new.data hne hub t.data s.data.length s.data (le_refl _)

theorem placeholderA_data_ne : placeholderA.data ≠ [] := by decide

theorem placeholderB_data_ne : placeholderB.data ≠ [] := by decide

theorem placeholderA_unbordered : Unbordered placeholderA.data := by decide

theorem placeholderB_unbordered : Unbordered placeholderB.data := by decide

theorem replaced_of_not_contains (v d : String) (hA : ¬ Contains v placeholderA)
    (hB : ¬ Contains v placeholderB) : replaced v d = v := by
  have h1 : ReplaceAll v placeholderA d = v := ReplaceAll_of_not_contains v _ d hA
  unfold replaced
  rw [h1]
  exact ReplaceAll_of_not_contains v _ d hB

theorem not_contains_of_replaced_eq_self (v pfx : String) (hpfx : pfx ≠ "REPLACEME")
    (hfix : replaced v (pfx ++ ".upcloudlb.com") = v) :
    ¬ Contains v placeholderA ∧ ¬ Contains v placeholderB := by
  have hdd : (pfx ++ ".upcloudlb.com").data = pfx.data ++ ".upcloudlb.com".data :=
    String.data_append _ _
  have hfix2 := congrArg String.data hfix
  unfold replaced at hfix2
  rw [ReplaceAll_data _ _ _ placeholderB_data_ne, ReplaceAll_data _ _ _ placeholderA_data_ne]
    at hfix2
  obtain ⟨k, hk0, hkl, hkc⟩ := replaceGo_measure placeholderA.data
    (pfx ++ ".upcloudlb.com").data placeholderA_data_ne v.data.length v.data (le_refl _)
  obtain ⟨m, hm0, -, hmc⟩ := replaceGo_measure placeholderB.data
    (pfx ++ ".upcloudlb.com").data placeholderB_data_ne _
    (replaceGo placeholderA.data (pfx ++ ".upcloudlb.com").data 0 v.data) (le_refl _)
  have hcA : placeholderA.data.count 'u' = 2 := by decide
  have hcB : placeholderB.data.count 'u' = 0 := by decide
  have hcS : ".upcloudlb.com".data.count 'u' = 2 := by decide
  have hlA : placeholderA.data.length = 23 := by decide
  have hU : (pfx ++ ".upcloudlb.com").data.count 'u' = pfx.data.count 'u' + 2 := by
    rw [hdd, List.count_append, hcS]
  have e1 := hkc 'u'
  have e2 := hmc 'u'
  rw [hfix2, hcB, hU, Nat.mul_add] at e2
  rw [hcA, hU, Nat.mul_add] at e1
  have hm : m = 0 := by omega
  have hnB := hm0.mp hm
  have hv1 : replaceGo placeholderA.data (pfx ++ ".upcloudlb.com").data 0 v.data = v.data := by
    rw [replaceGo_of_not_isInfix _ _ _ hnB] at hfix2
    exact hfix2
  rw [hv1] at hkl hnB
  have hk : k = 0 := by
    by_contra hk
    have hkpos : 0 < k := Nat.pos_of_ne_zero hk
    have hmul : k * placeholderA.data.length = k * (pfx ++ ".upcloudlb.com").data.length := by
      omega
    have hlen := Nat.eq_of_mul_eq_mul_left hkpos hmul
    have hin : placeholderA.data <:+: v.data := by
      by_contra hc
      exact hk (hk0.mpr hc)
    have heq := replaceGo_fixed placeholderA.data (pfx ++ ".upcloudlb.com").data hlen.symm
      v.data hv1 hin
    rw [hdd] at heq
    have hsplit : placeholderA.data = "REPLACEME".data ++ ".upcloudlb.com".data := by decide
    rw [hsplit] at heq
    exact hpfx (String.ext (List.append_cancel_right heq))
  exact ⟨hk0.mp hk, hnB⟩

/-! ## Lists of alternating keys and values -/

theorem mapValues_length (f : Node → Node → Node) :
    ∀ l : List Node, (mapValues f l).length = l.length
  | [] => rfl
  | [_] => rfl
  | _ :: _ :: rest => by simp [mapValues, mapValues_length f rest]

theorem mapValues_getElem?_even (f : Node → Node → Node) :
    ∀ (l : List Node) (i : Nat), i % 2 = 0 → (mapValues f l)[i]? = l[i]?
  | [], _, _ => rfl
  | [_], _, _ => rfl
  | _ :: _ :: _, 0, _ => rfl
  | _ :: _ :: _, 1, h => by simp at h
  | _ :: _ :: rest, i + 2, h => by
    simp only [mapValues, List.getElem?_cons_succ]
    exact mapValues_getElem?_even f rest i (by omega)

theorem mapValues_getElem?_odd (f : Node → Node → Node) :
    ∀ (l : List Node) (i : Nat), i % 2 = 1 →
      (mapValues f l)[i]? = (l[i]?).bind (fun v => (l[i - 1]?).map (fun k => f k v))
  | [], _, _ => rfl
  | [_], 0, h => by simp at h
  | [_], i + 1, _ => by simp [mapValues]
  | _ :: _ :: _, 0, h => by simp at h
  | _ :: _ :: _, 1, _ => by simp [mapValues]
  | _ :: _ :: rest, i + 2, h => by
    simp only [mapValues, List.getElem?_cons_succ]
    rw [mapValues_getElem?_odd f rest i (by omega)]
    have : i + 2 - 1 = (i - 1) + 1 + 1 := by omega
    rw [this]
    simp only [List.getElem?_cons_succ]

theorem mapValues_eq_self (f : Node → Node → Node) :
    ∀ l : List Node,
      (∀ i k v, i % 2 = 1 → l[i - 1]? = some k → l[i]? = some v → f k v = v) →
      mapValues f l = l
  | [], _ => rfl
  | [_], _ => rfl
  | k :: v :: rest, h => by
    simp only [mapValues]
    rw [h 1 k v rfl (by simp) (by simp)]
    rw [mapValues_eq_self f rest (fun i k v hi hk hv => h (i + 2) k v (by omega) (by
      have : i + 2 - 1 = (i - 1) + 1 + 1 := by omega
      rw [this]; simpa using hk) (by simpa using hv))]

theorem updatePairs_eq (descend : Node → Option Node) (g : Node → Node) (seg : String)
    (rest : KeyPath) (fullDNS : String) :
    ∀ l : List Node, l.length % 2 = 0 → (rest ≠ [] → ∀ v ∈ l, descend v = some (g v)) →
      updatePairs descend (seg :: rest) fullDNS l = some (mapValues (fun k v =>
        if k.Value = seg then (if rest = [] then updateTarget v fullDNS else g v) else v) l)
  | [], _, _ => rfl
  | [_], h, _ => by simp at h
  | k :: v :: l, h, hd => by
    have hl : l.length % 2 = 0 := by simp at h; omega
    have ih := updatePairs_eq descend g seg rest fullDNS l hl
      (fun hr v hv => hd hr v (by simp [hv]))
    simp only [updatePairs, mapValues, ih, List.length_cons, Option.map_some']
    by_cases hk : k.Value = seg
    · by_cases hr : rest = []
      · simp [hk, hr]
      · simp [hk, hr, hd hr v (by simp)]
    · simp [hk]

/-! ## Well-formed trees -/

theorem evenMappingsList_iff : ∀ l : List Node,
    evenMappingsList l = true ↔ ∀ c ∈ l, WellFormed c
  | [] => by simp [evenMappingsList]
  | n :: ns => by
    simp [evenMappingsList, evenMappingsList_iff ns, WellFormed]

theorem wellFormed_iff (n : Node) :
    WellFormed n ↔
      (n.Kind = MappingNode → n.Content.length % 2 = 0) ∧ ∀ c ∈ n.Content, WellFormed c := by
  rw [← evenMappingsList_iff]
  obtain ⟨kind, _, _, _, _, c, _, _, _, _, _⟩ := n
  simp only [WellFormed, evenMappings, Bool.and_eq_true, Bool.or_eq_true, bne_iff_ne, ne_eq,
    beq_iff_eq]
  constructor
  · rintro ⟨h1, h2⟩
    exact ⟨fun hk => h1.resolve_left (fun h => h hk), h2⟩
  · rintro ⟨h1, h2⟩
    refine ⟨?_, h2⟩
    by_cases hk : kind = MappingNode
    · exact Or.inr (h1 hk)
    · exact Or.inl hk

theorem findAndUpdateValue_eq_updated (fullDNS : String) :
    ∀ (path : KeyPath) (node : Node), WellFormed node → path ≠ [] →
      findAndUpdateValue node path fullDNS = some (updated node path fullDNS)
  | [], _, _, h => absurd rfl h
  | seg :: rest, node, hwf, _ => by
    obtain ⟨heven, hch⟩ := (wellFormed_iff node).mp hwf
    simp only [findAndUpdateValue, updated]
    by_cases hk : node.Kind = MappingNode
    · simp only [hk, ne_eq, not_true_eq_false, if_false]
      rw [updatePairs_eq _ (fun v => updated v rest fullDNS) seg rest fullDNS node.Content
        (heven hk) (fun hr v hv => findAndUpdateValue_eq_updated fullDNS rest v (hch v hv) hr)]
      rfl
    · simp [hk]

/-! ## Addresses: what a call changes, node by node -/

theorem keyPathAt_length : ∀ (a : List Nat) (n : Node) (q : KeyPath),
    keyPathAt n a = some q → q.length = a.length
  | [], _, q, h => by
    simp only [keyPathAt, Option.some.injEq] at h
    subst h; rfl
  | i :: a, n, q, h => by
    simp only [keyPathAt] at h
    split at h
    · split at h
      · rename_i k v _ _
        cases hq : keyPathAt v a with
        | none => simp [hq] at h
        | some q' =>
          simp only [hq, Option.map_some', Option.some.injEq] at h
          subst h
          simp [keyPathAt_length a v q' hq]
      · simp at h
    · simp at h

theorem updateTarget_Content (v : Node) (d : String) :
    (updateTarget v d).Content = v.Content := by
  unfold updateTarget; split <;> rfl

theorem updateTarget_Kind (v : Node) (d : String) : (updateTarget v d).Kind = v.Kind := by
  unfold updateTarget; split <;> rfl

theorem updateTarget_Tag (v : Node) (d : String) : (updateTarget v d).Tag = v.Tag := by
  unfold updateTarget; split <;> rfl

theorem updateTarget_fields (v : Node) (d : String) :
    (updateTarget v d).fields = updateTarget v.fields d := by
  unfold updateTarget Node.fields; split <;> rfl

theorem nodeAt_updateTarget_cons (v : Node) (d : String) (j : Nat) (a : List Nat) :
    nodeAt (updateTarget v d) (j :: a) = nodeAt v (j :: a) := by
  simp only [nodeAt, updateTarget_Content]

theorem keyPathAt_updateTarget (v : Node) (d : String) :
    ∀ a : List Nat, keyPathAt (updateTarget v d) a = keyPathAt v a
  | [] => rfl
  | _ :: _ => by simp only [keyPathAt, updateTarget_Content, updateTarget_Kind]

theorem updated_fields (n : Node) (p : KeyPath) (d : String) :
    (updated n p d).fields = n.fields := by
  cases p with
  | nil => rfl
  | cons seg rest => simp only [updated]; split <;> rfl

theorem updated_Kind (n : Node) (p : KeyPath) (d : String) :
    (updated n p d).Kind = n.Kind := by
  cases p with
  | nil => rfl
  | cons seg rest => simp only [updated]; split <;> rfl

theorem updated_Content_length (n : Node) (p : KeyPath) (d : String) :
    (updated n p d).Content.length = n.Content.length := by
  cases p with
  | nil => rfl
  | cons seg rest =>
    simp only [updated]; split
    · rfl
    · simp [mapValues_length]

theorem getElem?_pred_of_some {l : List Node} {i : Nat} {v : Node} (h : l[i]? = some v) :
    ∃ k, l[i - 1]? = some k := by
  have hi : i < l.length := by
    by_contra hc
    rw [List.getElem?_eq_none (Nat.le_of_not_lt hc)] at h
    cases h
  exact ⟨l[i - 1], List.getElem?_eq_getElem (by omega)⟩

theorem updated_at (d : String) : ∀ (a : List Nat) (n : Node) (p : KeyPath), p ≠ [] →
    (nodeAt (updated n p d) a).map Node.fields
        = (nodeAt n a).map (fun m =>
            if keyPathAt n a = some p then (updateTarget m d).fields else m.fields)
      ∧ (nodeAt (updated n p d) a).map (fun m => m.Content.length)
        = (nodeAt n a).map (fun m => m.Content.length)
      ∧ keyPathAt (updated n p d) a = keyPathAt n a
  | [], n, p, hp => by
    have hk : ¬ ([] : KeyPath) = p := fun h => hp h.symm
    simp [nodeAt, keyPathAt, hk, updated_fields, updated_Content_length]
  | _ :: _, _, [], hp => absurd rfl hp
  | i :: a, n, seg :: rest, _ => by
    by_cases hkind : n.Kind = MappingNode
    swap
    · have hu : updated n (seg :: rest) d = n := by simp [updated, hkind]
      rw [hu]
      simp [keyPathAt, hkind]
    have hc : (updated n (seg :: rest) d).Content = mapValues (fun k v =>
        if k.Value = seg then (if rest = [] then updateTarget v d else updated v rest d)
        else v) n.Content := by
      simp [updated, hkind]
    have hK := updated_Kind n (seg :: rest) d
    by_cases hi : i % 2 = 1
    swap
    · have hi0 : i % 2 = 0 := by omega
      simp only [nodeAt, keyPathAt, hc, mapValues_getElem?_even _ _ _ hi0, hi, and_false,
        if_false]
      simp
    cases hv : n.Content[i]? with
    | none =>
      simp [nodeAt, keyPathAt, hc, mapValues_getElem?_odd _ _ _ hi, hv]
    | some v =>
      obtain ⟨k, hk⟩ := getElem?_pred_of_some hv
      have hi1 : (i - 1) % 2 = 0 := by omega
      simp only [nodeAt, keyPathAt, hc, hK, hkind, hi, mapValues_getElem?_odd _ _ _ hi,
        mapValues_getElem?_even _ _ _ hi1, hv, hk, Option.map_some', Option.some_bind,
        and_self, if_true]
      by_cases hseg : k.Value = seg
      · by_cases hr : rest = []
        · subst hr
          simp only [hseg, if_true]
          cases a with
          | nil => simp [nodeAt, keyPathAt, hseg, updateTarget_Content]
          | cons j a' =>
            rw [nodeAt_updateTarget_cons, keyPathAt_updateTarget]
            have hne : (keyPathAt v (j :: a')).map (fun q => seg :: q) ≠ some [seg] := by
              cases hq : keyPathAt v (j :: a') with
              | none => simp
              | some q =>
                have := keyPathAt_length _ _ _ hq
                cases q with
                | nil => simp at this
                | cons _ _ => simp
            simp [hne]
        · obtain ⟨ih1, ih2, ih3⟩ := updated_at d a v rest hr
          simp only [hseg, hr, if_true, if_false]
          refine ⟨?_, ih2, by rw [ih3]⟩
          rw [ih1]
          cases hq : keyPathAt v a with
          | none => simp
          | some q => simp
      · have hne : (keyPathAt v a).map (fun q => k.Value :: q) ≠ some (seg :: rest) := by
          cases hq : keyPathAt v a with
          | none => simp
          | some q => simp [hseg]
        simp [hseg, hne]

theorem updatedAll_at (d : String) : ∀ (ps : List KeyPath) (doc : Node) (a : List Nat),
    (∀ p ∈ ps, p ≠ []) → ps.Nodup →
    (nodeAt (updatedAll d ps doc) a).map Node.fields
        = (nodeAt doc a).map (fun m =>
            if keyPathAt doc a ∈ ps.map some then (updateTarget m d).fields else m.fields)
      ∧ (nodeAt (updatedAll d ps doc) a).map (fun m => m.Content.length)
        = (nodeAt doc a).map (fun m => m.Content.length)
      ∧ keyPathAt (updatedAll d ps doc) a = keyPathAt doc a
  | [], doc, a, _, _ => by simp [updatedAll]
  | p :: ps, doc, a, hne, hnd => by
    obtain ⟨h1, h2, h3⟩ := updated_at d a doc p (hne p (by simp))
    obtain ⟨i1, i2, i3⟩ := updatedAll_at d ps (updated doc p d) a
      (fun q hq => hne q (by simp [hq])) (List.nodup_cons.mp hnd).2
    have hp : p ∉ ps := (List.nodup_cons.mp hnd).1
    simp only [updatedAll]
    refine ⟨?_, by rw [i2, h2], by rw [i3, h3]⟩
    rw [i1, h3]
    have hG : (fun m : Node =>
          if keyPathAt doc a ∈ ps.map some then (updateTarget m d).fields else m.fields)
        = (fun h : Node => if keyPathAt doc a ∈ ps.map some then updateTarget h d else h)
          ∘ Node.fields := by
      funext m
      simp only [Function.comp]
      split
      · exact updateTarget_fields m d
      · rfl
    rw [hG, ← Option.map_map, h1, Option.map_map]
    congr 1
    funext m
    simp only [Function.comp, List.map_cons, List.mem_cons]
    by_cases hkp : keyPathAt doc a = some p
    · have hnot : ¬ (some p ∈ ps.map some) := by simpa using hp
      simp [hkp, hnot]
    · simp only [hkp, if_false, false_or]
      split
      · exact (updateTarget_fields m d).symm
      · rfl

/-! ## No panic on well-formed trees -/

theorem mapValues_forall (P : Node → Prop) (f : Node → Node → Node) :
    ∀ l : List Node, (∀ c ∈ l, P c) → (∀ k v, v ∈ l → P v → P (f k v)) →
      ∀ c ∈ mapValues f l, P c
  | [], _, _ => by simp [mapValues]
  | [_], h, _ => by simpa [mapValues] using h
  | k :: v :: rest, h, hf => by
    have ih := mapValues_forall P f rest (fun c hc => h c (by simp [hc]))
      (fun k v hv hp => hf k v (by simp [hv]) hp)
    intro c hc
    simp only [mapValues, List.mem_cons] at hc
    rcases hc with rfl | rfl | hc
    · exact h _ (by simp)
    · exact hf k v (by simp) (h v (by simp))
    · exact ih c hc

theorem wellFormed_updateTarget (v : Node) (d : String) (h : WellFormed v) :
    WellFormed (updateTarget v d) := by
  rw [wellFormed_iff] at h ⊢
  simpa only [updateTarget_Kind, updateTarget_Content] using h

theorem wellFormed_updated (d : String) :
    ∀ (p : KeyPath) (n : Node), WellFormed n → WellFormed (updated n p d)
  | [], _, h => h
  | seg :: rest, n, h => by
    by_cases hkind : n.Kind = MappingNode
    swap
    · have hu : updated n (seg :: rest) d = n := by simp [updated, hkind]
      rw [hu]; exact h
    have hc : (updated n (seg :: rest) d).Content = mapValues (fun k v =>
        if k.Value = seg then (if rest = [] then updateTarget v d else updated v rest d)
        else v) n.Content := by
      simp [updated, hkind]
    obtain ⟨h1, h2⟩ := (wellFormed_iff n).mp h
    rw [wellFormed_iff, updated_Kind, updated_Content_length, hc]
    refine ⟨h1, mapValues_forall WellFormed _ _ h2 ?_⟩
    intro k v _ hv
    by_cases hseg : k.Value = seg
    · by_cases hr : rest = []
      · simpa [hseg, hr] using wellFormed_updateTarget v d hv
      · simpa [hseg, hr] using wellFormed_updated d rest v hv
    · simpa [hseg] using hv

theorem wellFormed_updatedAll (d : String) :
    ∀ (ps : List KeyPath) (doc : Node), WellFormed doc → WellFormed (updatedAll d ps doc)
  | [], _, h => h
  | p :: ps, doc, h => wellFormed_updatedAll d ps _ (wellFormed_updated d p doc h)

theorem applyPaths_eq_updatedAll (d : String) :
    ∀ (ps : List KeyPath) (doc : Node), WellFormed doc → (∀ p ∈ ps, p ≠ []) →
      applyPaths d ps doc = some (updatedAll d ps doc)
  | [], _, _, _ => rfl
  | p :: ps, doc, h, hne => by
    simp only [applyPaths, updatedAll,
      findAndUpdateValue_eq_updated d p doc h (hne p (by simp)), Option.some_bind]
    exact applyPaths_eq_updatedAll d ps _ (wellFormed_updated d p doc h)
      (fun q hq => hne q (by simp [hq]))

theorem targetFields_ne_nil : ∀ p ∈ targetFields, p ≠ [] := by decide

theorem targetFields_nodup : targetFields.Nodup := by decide

theorem rewritePass_eq_updatedAll (doc : Node) (pfx : String) (h : WellFormed doc) :
    rewritePass doc pfx = some (updatedAll (pfx ++ ".upcloudlb.com") targetFields doc) :=
  applyPaths_eq_updatedAll _ _ _ h targetFields_ne_nil

/-! ## Calls that change nothing -/

theorem updated_eq_self (d : String) : ∀ (p : KeyPath) (n : Node),
    (∀ a m, nodeAt n a = some m → keyPathAt n a = some p → updateTarget m d = m) →
      updated n p d = n
  | [], _, _ => rfl
  | seg :: rest, n, h => by
    by_cases hkind : n.Kind = MappingNode
    swap
    · simp [updated, hkind]
    have hmv : mapValues (fun k v =>
        if k.Value = seg then (if rest = [] then updateTarget v d else updated v rest d)
        else v) n.Content = n.Content := by
      apply mapValues_eq_self
      intro i k v hi hk hv
      by_cases hseg : k.Value = seg
      · by_cases hr : rest = []
        · simp only [hseg, hr, if_true]
          apply h [i] v
          · simp [nodeAt, hv]
          · simp [keyPathAt, hkind, hi, hk, hv, hseg, hr]
        · simp only [hseg, hr, if_true, if_false]
          apply updated_eq_self d rest v
          intro a m hm hkp
          apply h (i :: a) m
          · simp [nodeAt, hv, hm]
          · simp [keyPathAt, hkind, hi, hk, hv, hseg, hkp]
      · simp [hseg]
    have hu : updated n (seg :: rest) d = { n with Content := n.Content } := by
      simp only [updated]
      rw [if_neg (fun hc => hc hkind), hmv]
    rw [hu]
    cases n
    rfl

theorem updatedAll_eq_self (d : String) : ∀ (ps : List KeyPath) (doc : Node),
    (∀ p ∈ ps, ∀ a m, nodeAt doc a = some m → keyPathAt doc a = some p →
      updateTarget m d = m) → updatedAll d ps doc = doc
  | [], _, _ => rfl
  | p :: ps, doc, h => by
    simp only [updatedAll, updated_eq_self d p doc (h p (by simp))]
    exact updatedAll_eq_self d ps doc (fun q hq => h q (by simp [hq]))

/-! ## What a target node becomes -/

theorem updateTarget_of_str (m : Node) (d : String) (hk : m.Kind = ScalarNode)
    (ht : m.Tag = "!!str") :
    updateTarget m d = { m with Value := replaced m.Value d, Style := DoubleQuotedStyle } := by
  simp [updateTarget, hk, ht]

theorem updateTarget_of_not_str (m : Node) (d : String)
    (h : ¬ (m.Kind = ScalarNode ∧ m.Tag = "!!str")) : updateTarget m d = m := by
  simp only [updateTarget, if_neg h]

theorem keyPathAt_append_even (i : Nat) (hi : i % 2 = 0) :
    ∀ (a : List Nat) (n : Node), keyPathAt n (a ++ [i]) = none
  | [], n => by simp [keyPathAt, hi]
  | j :: a, n => by
    simp only [List.cons_append, keyPathAt]
    split
    · split
      · rename_i k v _ _
        have ih := keyPathAt_append_even i hi a v
        simp only [List.append_eq] at ih ⊢
        rw [ih]
        rfl
      · rfl
    · rfl

/-- After the pass over `targetFields`, node by node. -/
theorem rewritePass_at (doc : Node) (pfx : String) (hwf : WellFormed doc) :
    rewritePass doc pfx = some (updatedAll (pfx ++ ".upcloudlb.com") targetFields doc) ∧
    ∀ a : List Nat,
      (nodeAt (updatedAll (pfx ++ ".upcloudlb.com") targetFields doc) a).map Node.fields
          = (nodeAt doc a).map (fun m =>
              if keyPathAt doc a ∈ targetFields.map some
              then (updateTarget m (pfx ++ ".upcloudlb.com")).fields else m.fields)
        ∧ (nodeAt (updatedAll (pfx ++ ".upcloudlb.com") targetFields doc) a).map
            (fun m => m.Content.length) = (nodeAt doc a).map (fun m => m.Content.length)
        ∧ keyPathAt (updatedAll (pfx ++ ".upcloudlb.com") targetFields doc) a
          = keyPathAt doc a :=
  ⟨rewritePass_eq_updatedAll doc pfx hwf, fun a =>
    updatedAll_at _ targetFields doc a targetFields_ne_nil targetFields_nodup⟩

/-! ## The claims -/

/-- C1, as stated, fails: with the value `http://REPLACEME.upcloudlb.com/?from=example.com` at
`kong.environment.SUPABASE_PUBLIC_URL` and the prefix `lb-abc123`, the value after the pass
is not the input with only `REPLACEME.upcloudlb.com` replaced, because the second
substitution rewrites `example.com` as well. -/
theorem C1_counterexample :
    WellFormed (kongDoc 0 "http://REPLACEME.upcloudlb.com/?from=example.com") ∧
    ["kong", "environment", "SUPABASE_PUBLIC_URL"] ∈ targetFields ∧
    keyPathAt (kongDoc 0 "http://REPLACEME.upcloudlb.com/?from=example.com") [1, 1, 1]
      = some ["kong", "environment", "SUPABASE_PUBLIC_URL"] ∧
    (nodeAt (kongDoc 0 "http://REPLACEME.upcloudlb.com/?from=example.com") [1, 1, 1]).map
      (fun m => (m.Kind, m.Tag, m.Value))
      = some (ScalarNode, "!!str", "http://REPLACEME.upcloudlb.com/?from=example.com") ∧
    Contains "http://REPLACEME.upcloudlb.com/?from=example.com" placeholderA ∧
    ((rewritePass (kongDoc 0 "http://REPLACEME.upcloudlb.com/?from=example.com")
        "lb-abc123").bind (fun t => nodeAt t [1, 1, 1])).map Node.Value
      = some "http://lb-abc123.upcloudlb.com/?from=lb-abc123.upcloudlb.com" ∧
    ReplaceAll "http://REPLACEME.upcloudlb.com/?from=example.com" placeholderA
        ("lb-abc123" ++ ".upcloudlb.com")
      = "http://lb-abc123.upcloudlb.com/?from=example.com" ∧
    "http://lb-abc123.upcloudlb.com/?from=lb-abc123.upcloudlb.com"
      ≠ "http://lb-abc123.upcloudlb.com/?from=example.com" := by
  refine ⟨by decide, by decide, by decide, by decide, by decide, by decide, by decide, by decide⟩

/-- C1, amended: on a well-formed document the pass returns, and every `!!str` scalar found
under a path of `targetFields` whose value contains `REPLACEME.upcloudlb.com` ends with the
input value in which every `REPLACEME.upcloudlb.com` was replaced by
`dnsPrefix ++ ".upcloudlb.com"` and then every `example.com` of that result was replaced
too; when that intermediate result holds no `example.com`, this is the input value with
every `REPLACEME.upcloudlb.com` replaced. -/
theorem C1_placeholderA_replaced (doc : Node) (pfx : String) (hwf : WellFormed doc) :
    ∃ t, rewritePass doc pfx = some t ∧
      ∀ path ∈ targetFields, ∀ (a : List Nat) (m : Node),
        nodeAt doc a = some m → keyPathAt doc a = some path →
        m.Kind = ScalarNode → m.Tag = "!!str" → Contains m.Value placeholderA →
        ∃ m', nodeAt t a = some m' ∧ keyPathAt t a = some path ∧
          m'.Value = ReplaceAll (ReplaceAll m.Value placeholderA (pfx ++ ".upcloudlb.com"))
            placeholderB (pfx ++ ".upcloudlb.com") ∧
          (¬ Contains (ReplaceAll m.Value placeholderA (pfx ++ ".upcloudlb.com")) placeholderB →
            m'.Value = ReplaceAll m.Value placeholderA (pfx ++ ".upcloudlb.com")) := by
  obtain ⟨hrun, hat⟩ := rewritePass_at doc pfx hwf
  refine ⟨_, hrun, ?_⟩
  intro path hpath a m hm hkp hkind htag _
  obtain ⟨h1, -, h3⟩ := hat a
  have hmem : keyPathAt doc a ∈ targetFields.map some := by
    rw [hkp]; exact List.mem_map_of_mem _ hpath
  rw [hm] at h1
  simp only [Option.map_some', hmem, if_true] at h1
  obtain ⟨m', hm', hf⟩ := Option.map_eq_some'.mp h1
  have hval : m'.Value = replaced m.Value (pfx ++ ".upcloudlb.com") := by
    have := congrArg Node.Value hf
    rw [updateTarget_of_str m _ hkind htag] at this
    exact this
  refine ⟨m', hm', by rw [h3, hkp], hval, ?_⟩
  intro hno
  rw [hval]
  exact ReplaceAll_of_not_contains _ _ _ hno

/-- C1, the scenario of the specification: `kong.environment.SUPABASE_PUBLIC_URL` set to
`http://REPLACEME.upcloudlb.com` and the prefix `lb-abc123` give
`http://lb-abc123.upcloudlb.com`. -/
theorem C1_placeholderA_replaced_witness :
    WellFormed (kongDoc 0 "http://REPLACEME.upcloudlb.com") ∧
    ∃ t, rewritePass (kongDoc 0 "http://REPLACEME.upcloudlb.com") "lb-abc123" = some t ∧
      ∃ m', nodeAt t [1, 1, 1] = some m' ∧
        keyPathAt t [1, 1, 1] = some ["kong", "environment", "SUPABASE_PUBLIC_URL"] ∧
        m'.Value = "http://lb-abc123.upcloudlb.com" := by
  refine ⟨by decide, ?_⟩
  obtain ⟨t, ht, h⟩ :=
    C1_placeholderA_replaced (kongDoc 0 "http://REPLACEME.upcloudlb.com") "lb-abc123"
      (by decide)
  obtain ⟨m', h1, h2, -, h4⟩ := h ["kong", "environment", "SUPABASE_PUBLIC_URL"] (by decide)
    [1, 1, 1] (strScalar 0 "http://REPLACEME.upcloudlb.com") rfl (by decide) rfl rfl (by decide)
  refine ⟨t, ht, m', h1, h2, ?_⟩
  rw [h4 (by decide)]
  decide

/-- C2: on a well-formed document the pass returns, and every `!!str` scalar found under a
path of `targetFields` whose value contains `example.com` and not `REPLACEME.upcloudlb.com`
ends with the input value in which every `example.com` was replaced by
`dnsPrefix ++ ".upcloudlb.com"`. -/
theorem C2_placeholderB_replaced (doc : Node) (pfx : String) (hwf : WellFormed doc) :
    ∃ t, rewritePass doc pfx = some t ∧
      ∀ path ∈ targetFields, ∀ (a : List Nat) (m : Node),
        nodeAt doc a = some m → keyPathAt doc a = some path →
        m.Kind = ScalarNode → m.Tag = "!!str" →
        Contains m.Value placeholderB → ¬ Contains m.Value placeholderA →
        ∃ m', nodeAt t a = some m' ∧ keyPathAt t a = some path ∧
          m'.Value = ReplaceAll m.Value placeholderB (pfx ++ ".upcloudlb.com") := by
  obtain ⟨hrun, hat⟩ := rewritePass_at doc pfx hwf
  refine ⟨_, hrun, ?_⟩
  intro path hpath a m hm hkp hkind htag _ hnoA
  obtain ⟨h1, -, h3⟩ := hat a
  have hmem : keyPathAt doc a ∈ targetFields.map some := by
    rw [hkp]; exact List.mem_map_of_mem _ hpath
  rw [hm] at h1
  simp only [Option.map_some', hmem, if_true] at h1
  obtain ⟨m', hm', hf⟩ := Option.map_eq_some'.mp h1
  refine ⟨m', hm', by rw [h3, hkp], ?_⟩
  have := congrArg Node.Value hf
  rw [updateTarget_of_str m _ hkind htag] at this
  have hval : m'.Value = replaced m.Value (pfx ++ ".upcloudlb.com") := this
  rw [hval]
  unfold replaced
  rw [ReplaceAll_of_not_contains m.Value placeholderA _ hnoA]

/-- C2 at `kong.environment.SUPABASE_PUBLIC_URL: http://example.com` with the prefix
`lb-abc123`. -/
theorem C2_placeholderB_replaced_witness :
    WellFormed (kongDoc 0 "http://example.com") ∧
    ∃ t, rewritePass (kongDoc 0 "http://example.com") "lb-abc123" = some t ∧
      ∃ m', nodeAt t [1, 1, 1] = some m' ∧ m'.Value = "http://lb-abc123.upcloudlb.com" := by
  refine ⟨by decide, ?_⟩
  obtain ⟨t, ht, h⟩ :=
    C2_placeholderB_replaced (kongDoc 0 "http://example.com") "lb-abc123" (by decide)
  obtain ⟨m', h1, -, h3⟩ := h ["kong", "environment", "SUPABASE_PUBLIC_URL"] (by decide)
    [1, 1, 1] (strScalar 0 "http://example.com") rfl (by decide) rfl rfl (by decide) (by decide)
  refine ⟨t, ht, m', h1, ?_⟩
  rw [h3]
  decide

/-- C3, as stated, fails: in the well-formed mapping `{a: 1, a: http://example.com}` the
path `a` resolves, at the first key `a` (child 1), to an `!!int` scalar, which is no `!!str`
scalar; yet the call rewrites the value under the second key `a` (child 3), so the tree is
not left as it was. -/
theorem C3_counterexample :
    WellFormed dupMixed ∧
    dupMixed.Content.map Node.Value = ["a", "1", "a", "http://example.com"] ∧
    keyPathAt dupMixed [1] = some ["a"] ∧
    (nodeAt dupMixed [1]).map (fun m => (m.Kind, m.Tag)) = some (ScalarNode, "!!int") ∧
    "!!int" ≠ "!!str" ∧
    (findAndUpdateValue dupMixed ["a"] "lb-abc123.upcloudlb.com").map
        (fun t => t.Content.map (fun m => (m.Value, m.Style)))
      = some [("a", 0), ("1", 0), ("a", 0),
          ("http://lb-abc123.upcloudlb.com", DoubleQuotedStyle)] ∧
    findAndUpdateValue dupMixed ["a"] "lb-abc123.upcloudlb.com" ≠ some dupMixed := by
  refine ⟨by decide, by decide, by decide, by decide, by decide, by decide, ?_⟩
  intro h
  have hv := congrArg (Option.map (fun t : Node => t.Content.map Node.Value)) h
  revert hv
  decide

/-- C3, amended: on a well-formed tree and for a non-empty path, when no node found under
the path is a `!!str` scalar (no node is found at all, or every node found, under every
occurrence of a repeated key, is of another kind or tag), `findAndUpdateValue` returns and
leaves the tree exactly as it was. -/
theorem C3_no_str_target_unchanged (node : Node) (path : KeyPath) (fullDNS : String)
    (hwf : WellFormed node) (hp : path ≠ [])
    (h : ∀ (a : List Nat) (m : Node), nodeAt node a = some m → keyPathAt node a = some path →
      ¬ (m.Kind = ScalarNode ∧ m.Tag = "!!str")) :
    findAndUpdateValue node path fullDNS = some node := by
  rw [findAndUpdateValue_eq_updated fullDNS path node hwf hp,
    updated_eq_self fullDNS path node
      (fun a m hm hk => updateTarget_of_not_str m _ (h a m hm hk))]

/-- C3 at the document `a: 1`: the path `a` resolves to an `!!int` scalar, and the tree is
left as it was. -/
theorem C3_no_str_target_unchanged_witness :
    WellFormed intDoc ∧ nodeAt intDoc [1] = some (intScalar "1") ∧
    keyPathAt intDoc [1] = some ["a"] ∧
    findAndUpdateValue intDoc ["a"] "lb-abc123.upcloudlb.com" = some intDoc := by
  refine ⟨by decide, rfl, by decide, ?_⟩
  apply C3_no_str_target_unchanged intDoc ["a"] "lb-abc123.upcloudlb.com" (by decide)
    (by decide)
  intro a m hm hk
  have hl := keyPathAt_length a _ _ hk
  match a, hl with
  | [i], _ =>
    rcases i with _ | _ | i
    · simp [keyPathAt] at hk
    · simp only [nodeAt, intDoc, mapping, intScalar, List.getElem?_cons_succ,
        List.getElem?_cons_zero, Option.some_bind, Option.some.injEq] at hm
      subst hm
      decide
    · simp [nodeAt, intDoc, mapping] at hm

/-- C4: on a well-formed document the pass returns a tree with the same nodes at the same
addresses; every node keeps its number of children, every node whose key path is not one
of the eight paths of `targetFields` keeps all its fields (kind, style, tag, value, anchor,
comments, position), and so does every child at an even index, that is, every key of a
mapping, in its place. -/
theorem C4_non_target_nodes_unchanged (doc : Node) (pfx : String) (hwf : WellFormed doc) :
    ∃ t, rewritePass doc pfx = some t ∧ ∀ a : List Nat,
      (nodeAt t a).map (fun m => m.Content.length)
        = (nodeAt doc a).map (fun m => m.Content.length) ∧
      keyPathAt t a = keyPathAt doc a ∧
      ((∀ path ∈ targetFields, keyPathAt doc a ≠ some path) →
        (nodeAt t a).map Node.fields = (nodeAt doc a).map Node.fields) ∧
      (∀ i : Nat, i % 2 = 0 →
        (nodeAt t (a ++ [i])).map Node.fields = (nodeAt doc (a ++ [i])).map Node.fields) := by
  obtain ⟨hrun, hat⟩ := rewritePass_at doc pfx hwf
  refine ⟨_, hrun, ?_⟩
  have key : ∀ a : List Nat, (∀ path ∈ targetFields, keyPathAt doc a ≠ some path) →
      (nodeAt (updatedAll (pfx ++ ".upcloudlb.com") targetFields doc) a).map Node.fields
        = (nodeAt doc a).map Node.fields := by
    intro a hno
    have hmem : ¬ keyPathAt doc a ∈ targetFields.map some := by
      intro hc
      obtain ⟨p, hp, hpe⟩ := List.mem_map.mp hc
      exact hno p hp hpe.symm
    rw [(hat a).1]
    simp only [hmem, if_false]
  intro a
  refine ⟨(hat a).2.1, (hat a).2.2, key a, ?_⟩
  intro i hi
  apply key
  intro path _
  rw [keyPathAt_append_even i hi a doc]
  simp

/-- C4 at `sampleDoc` with the prefix `lb-abc123`: the scalar under
`kong.environment.OTHER_URL` holds `example.com`, is no target, and keeps all its fields. -/
theorem C4_non_target_nodes_unchanged_witness :
    WellFormed sampleDoc ∧
    keyPathAt sampleDoc [1, 1, 3] = some ["kong", "environment", "OTHER_URL"] ∧
    ∃ t, rewritePass sampleDoc "lb-abc123" = some t ∧
      (nodeAt t [1, 1, 3]).map Node.fields = some (strScalar 0 "http://example.com") := by
  refine ⟨by decide, by decide, ?_⟩
  obtain ⟨t, ht, h⟩ := C4_non_target_nodes_unchanged sampleDoc "lb-abc123" (by decide)
  refine ⟨t, ht, ?_⟩
  rw [(h [1, 1, 3]).2.2.1 (by decide)]
  rfl

/-- C5, as stated, fails: in the mapping `{a: example.com, a: example.com}` the value under
the second key `a` is rewritten as well, not only the one under the first. -/
theorem C5_counterexample :
    dupDoc.Content.map Node.Value = ["a", "example.com", "a", "example.com"] ∧
    (findAndUpdateValue dupDoc ["a"] "lb-abc123.upcloudlb.com").map
        (fun t => t.Content.map Node.Value)
      = some ["a", "lb-abc123.upcloudlb.com", "a", "lb-abc123.upcloudlb.com"] := by
  refine ⟨by decide, by decide⟩

/-- C5, amended: on a well-formed mapping node the loop handles every pair whose key equals
the first path segment, the first and the later ones alike: the value of each such pair is
rewritten as a target when the path has one segment, and otherwise replaced by the result
of the recursive call on it; keys and the values under other keys stay. -/
theorem C5_every_matching_key (node : Node) (seg : String) (rest : KeyPath)
    (fullDNS : String) (hwf : WellFormed node) (hkind : node.Kind = MappingNode) :
    ∃ t, findAndUpdateValue node (seg :: rest) fullDNS = some t ∧
      t.Content.length = node.Content.length ∧
      ∀ (i : Nat) (k v : Node), i % 2 = 1 →
        node.Content[i - 1]? = some k → node.Content[i]? = some v →
        t.Content[i - 1]? = some k ∧
        (k.Value = seg → t.Content[i]? =
          if rest = [] then some (updateTarget v fullDNS)
          else findAndUpdateValue v rest fullDNS) ∧
        (k.Value ≠ seg → t.Content[i]? = some v) := by
  refine ⟨_, findAndUpdateValue_eq_updated fullDNS (seg :: rest) node hwf (by simp),
    updated_Content_length _ _ _, ?_⟩
  have hc : (updated node (seg :: rest) fullDNS).Content = mapValues (fun k v =>
      if k.Value = seg then
        (if rest = [] then updateTarget v fullDNS else updated v rest fullDNS)
      else v) node.Content := by
    simp [updated, hkind]
  intro i k v hi hk hv
  have hi1 : (i - 1) % 2 = 0 := by omega
  rw [hc, mapValues_getElem?_even _ _ _ hi1, mapValues_getElem?_odd _ _ _ hi, hk, hv]
  refine ⟨rfl, ?_, ?_⟩
  · intro hseg
    by_cases hr : rest = []
    · simp [hseg, hr]
    · have hvwf : WellFormed v :=
        ((wellFormed_iff node).mp hwf).2 v (List.getElem?_mem hv)
      simp [hseg, hr, findAndUpdateValue_eq_updated fullDNS rest v hvwf hr]
  · intro hseg
    simp [hseg]

/-- C5 at the mapping `{a: example.com, a: example.com}`: the value under the second key
`a` (child 3) becomes the rewritten target. -/
theorem C5_every_matching_key_witness :
    WellFormed dupDoc ∧ dupDoc.Kind = MappingNode ∧
    ∃ t, findAndUpdateValue dupDoc ["a"] "lb-abc123.upcloudlb.com" = some t ∧
      t.Content[3]? = some (strScalar DoubleQuotedStyle "lb-abc123.upcloudlb.com") := by
  refine ⟨by decide, rfl, ?_⟩
  obtain ⟨t, ht, -, h⟩ :=
    C5_every_matching_key dupDoc "a" [] "lb-abc123.upcloudlb.com" (by decide) rfl
  refine ⟨t, ht, ?_⟩
  rw [(h 3 (strScalar 0 "a") (strScalar 0 "example.com") rfl rfl rfl).2.1 rfl]
  rfl

/-- C6, as stated, fails: with the prefix `REPLACEME` the name put in is the placeholder
itself, so the double-quoted document
`kong: {environment: {SUPABASE_PUBLIC_URL: "http://REPLACEME.upcloudlb.com"}}` is returned
unchanged by the pass (and by every further pass), although its target still contains
`REPLACEME.upcloudlb.com`. -/
theorem C6_counterexample :
    rewritePass (kongDoc DoubleQuotedStyle "http://REPLACEME.upcloudlb.com") "REPLACEME"
      = some (kongDoc DoubleQuotedStyle "http://REPLACEME.upcloudlb.com") ∧
    nodeAt (kongDoc DoubleQuotedStyle "http://REPLACEME.upcloudlb.com") [1, 1, 1]
      = some (strScalar DoubleQuotedStyle "http://REPLACEME.upcloudlb.com") ∧
    keyPathAt (kongDoc DoubleQuotedStyle "http://REPLACEME.upcloudlb.com") [1, 1, 1]
      = some ["kong", "environment", "SUPABASE_PUBLIC_URL"] ∧
    ["kong", "environment", "SUPABASE_PUBLIC_URL"] ∈ targetFields ∧
    Contains "http://REPLACEME.upcloudlb.com" placeholderA := by
  refine ⟨rfl, rfl, by decide, by decide, by decide⟩

/-- C6, amended: when the prefix is not `REPLACEME`, on a well-formed document the pass and a
second pass on its result both return, and the second pass changes nothing only if (and
also if) no `!!str` scalar under a path of `targetFields` in the first result contains
`REPLACEME.upcloudlb.com` or `example.com`. -/
theorem C6_second_pass_noop_iff (doc : Node) (pfx : String) (hwf : WellFormed doc)
    (hpfx : pfx ≠ "REPLACEME") :
    ∃ t1 t2, rewritePass doc pfx = some t1 ∧ rewritePass t1 pfx = some t2 ∧
      (t2 = t1 ↔
        ∀ path ∈ targetFields, ∀ (a : List Nat) (m : Node),
          nodeAt t1 a = some m → keyPathAt t1 a = some path →
          m.Kind = ScalarNode → m.Tag = "!!str" →
          ¬ Contains m.Value placeholderA ∧ ¬ Contains m.Value placeholderB) := by
  obtain ⟨hrun, hat⟩ := rewritePass_at doc pfx hwf
  have hwf1 := wellFormed_updatedAll (pfx ++ ".upcloudlb.com") targetFields doc hwf
  obtain ⟨hrun1, hat1⟩ := rewritePass_at _ pfx hwf1
  refine ⟨_, _, hrun, hrun1, ?_⟩
  constructor
  · intro heq path hpath a m hm hkp hkind htag
    have h1 := (hat1 a).1
    have hmem : keyPathAt (updatedAll (pfx ++ ".upcloudlb.com") targetFields doc) a
        ∈ targetFields.map some := by
      rw [hkp]; exact List.mem_map_of_mem _ hpath
    rw [heq, hm] at h1
    simp only [Option.map_some', hmem, if_true, Option.some.injEq] at h1
    have hv := congrArg Node.Value h1
    rw [updateTarget_of_str m _ hkind htag] at hv
    exact not_contains_of_replaced_eq_self m.Value pfx hpfx hv.symm
  · intro hno
    apply updatedAll_eq_self
    intro p hp a m hm hkp
    by_cases hstr : m.Kind = ScalarNode ∧ m.Tag = "!!str"
    swap
    · exact updateTarget_of_not_str m _ hstr
    obtain ⟨hkind, htag⟩ := hstr
    obtain ⟨hA, hB⟩ := hno p hp a m hm hkp hkind htag
    -- the node was already rewritten by the first pass, so it is double-quoted
    have h0 := (hat a).1
    have hkp0 : keyPathAt doc a = some p := by rw [← (hat a).2.2, hkp]
    have hmem : keyPathAt doc a ∈ targetFields.map some := by
      rw [hkp0]; exact List.mem_map_of_mem _ hp
    rw [hm] at h0
    simp only [Option.map_some', hmem, if_true] at h0
    obtain ⟨m0, -, hf⟩ := Option.map_eq_some'.mp h0.symm
    have hk0 : m0.Kind = ScalarNode := by
      have := congrArg Node.Kind hf
      rw [← updateTarget_Kind m0 (pfx ++ ".upcloudlb.com")]
      exact this.trans hkind
    have ht0 : m0.Tag = "!!str" := by
      have := congrArg Node.Tag hf
      rw [← updateTarget_Tag m0 (pfx ++ ".upcloudlb.com")]
      exact this.trans htag
    have hstyle : m.Style = DoubleQuotedStyle := by
      have := congrArg Node.Style hf
      rw [updateTarget_of_str m0 _ hk0 ht0] at this
      exact this.symm
    rw [updateTarget_of_str m _ hkind htag, replaced_of_not_contains _ _ hA hB, ← hstyle]
    cases m
    rfl

/-- C6 at `kong.environment.SUPABASE_PUBLIC_URL: http://REPLACEME.upcloudlb.com` with the
prefix `lb-abc123`. -/
theorem C6_second_pass_noop_iff_witness :
    WellFormed (kongDoc 0 "http://REPLACEME.upcloudlb.com") ∧ "lb-abc123" ≠ "REPLACEME" ∧
    ∃ t1 t2, rewritePass (kongDoc 0 "http://REPLACEME.upcloudlb.com") "lb-abc123" = some t1 ∧
      rewritePass t1 "lb-abc123" = some t2 ∧
      (t2 = t1 ↔
        ∀ path ∈ targetFields, ∀ (a : List Nat) (m : Node),
          nodeAt t1 a = some m → keyPathAt t1 a = some path →
          m.Kind = ScalarNode → m.Tag = "!!str" →
          ¬ Contains m.Value placeholderA ∧ ¬ Contains m.Value placeholderB) :=
  ⟨by decide, by decide,
    C6_second_pass_noop_iff (kongDoc 0 "http://REPLACEME.upcloudlb.com") "lb-abc123"
      (by decide) (by decide)⟩

/-- C7: on a well-formed document the pass returns a tree in which every `!!str` scalar
found under a path of `targetFields` (the scalars lines 43 to 49 rewrite) has the style
`DoubleQuotedStyle`, and every other node keeps the style it had. -/
theorem C7_style_after_pass (doc : Node) (pfx : String) (hwf : WellFormed doc) :
    ∃ t, rewritePass doc pfx = some t ∧
      ∀ (a : List Nat) (m : Node), nodeAt doc a = some m →
        ∃ m', nodeAt t a = some m' ∧
          (((∃ path ∈ targetFields, keyPathAt doc a = some path) ∧
              m.Kind = ScalarNode ∧ m.Tag = "!!str") → m'.Style = DoubleQuotedStyle) ∧
          (¬ ((∃ path ∈ targetFields, keyPathAt doc a = some path) ∧
              m.Kind = ScalarNode ∧ m.Tag = "!!str") → m'.Style = m.Style) := by
  obtain ⟨hrun, hat⟩ := rewritePass_at doc pfx hwf
  refine ⟨_, hrun, ?_⟩
  intro a m hm
  have h1 := (hat a).1
  rw [hm] at h1
  simp only [Option.map_some'] at h1
  obtain ⟨m', hm', hf⟩ := Option.map_eq_some'.mp h1
  have hs := congrArg Node.Style hf
  have hs' : m'.Style = (if keyPathAt doc a ∈ targetFields.map some
      then (updateTarget m (pfx ++ ".upcloudlb.com")).fields else m.fields).Style := hs
  refine ⟨m', hm', ?_, ?_⟩
  · rintro ⟨⟨path, hpath, hkp⟩, hkind, htag⟩
    have hmem : keyPathAt doc a ∈ targetFields.map some := by
      rw [hkp]; exact List.mem_map_of_mem _ hpath
    rw [hs', if_pos hmem, updateTarget_of_str m _ hkind htag]
    rfl
  · intro hnot
    rw [hs']
    split
    · rename_i hmem
      obtain ⟨p, hp, hpe⟩ := List.mem_map.mp hmem
      have hstr : ¬ (m.Kind = ScalarNode ∧ m.Tag = "!!str") :=
        fun hc => hnot ⟨⟨p, hp, hpe.symm⟩, hc⟩
      rw [updateTarget_of_not_str m _ hstr]
      rfl
    · rfl

/-- C7 at `sampleDoc` with the prefix `lb-abc123`: the single-quoted target becomes
double-quoted, the plain scalar under `OTHER_URL` stays plain. -/
theorem C7_style_after_pass_witness :
    WellFormed sampleDoc ∧
    ∃ t, rewritePass sampleDoc "lb-abc123" = some t ∧
      (∃ m', nodeAt t [1, 1, 1] = some m' ∧ m'.Style = DoubleQuotedStyle) ∧
      (∃ m', nodeAt t [1, 1, 3] = some m' ∧ m'.Style = 0) := by
  refine ⟨by decide, ?_⟩
  obtain ⟨t, ht, h⟩ := C7_style_after_pass sampleDoc "lb-abc123" (by decide)
  obtain ⟨m1, h1, h1s, -⟩ :=
    h [1, 1, 1] (strScalar SingleQuotedStyle "http://REPLACEME.upcloudlb.com") rfl
  obtain ⟨m3, h3, -, h3s⟩ := h [1, 1, 3] (strScalar 0 "http://example.com") rfl
  refine ⟨t, ht, ⟨m1, h1,
    h1s ⟨⟨["kong", "environment", "SUPABASE_PUBLIC_URL"], by decide, by decide⟩, rfl, rfl⟩⟩, ⟨m3, h3, ?_⟩⟩
  rw [h3s (by decide)]
  rfl

/-- C8, as stated, fails: the call for `kong.environment.SUPABASE_PUBLIC_URL` on `sampleDoc`
changes the `Style` of the matched leaf from single-quoted to double-quoted, a field other
than its `Value`. -/
theorem C8_counterexample :
    (nodeAt sampleDoc [1, 1, 1]).map Node.Style = some SingleQuotedStyle ∧
    ((findAndUpdateValue sampleDoc ["kong", "environment", "SUPABASE_PUBLIC_URL"]
        "lb-abc123.upcloudlb.com").bind (fun t => nodeAt t [1, 1, 1])).map Node.Style
      = some DoubleQuotedStyle ∧
    SingleQuotedStyle ≠ DoubleQuotedStyle := by
  refine ⟨by decide, by decide, by decide⟩

/-- C8, amended: on a well-formed tree and for a non-empty path the call returns a tree with
the same nodes at the same addresses, the same numbers of children and the same key paths;
the fields of a node differ from the input only at the `!!str` scalars found under the
path, and there only in `Value` (the two substitutions) and in `Style` (set to
`DoubleQuotedStyle`). -/
theorem C8_only_value_and_style_change (node : Node) (path : KeyPath) (fullDNS : String)
    (hwf : WellFormed node) (hp : path ≠ []) :
    ∃ t, findAndUpdateValue node path fullDNS = some t ∧ ∀ a : List Nat,
      (nodeAt t a).map (fun m => m.Content.length)
        = (nodeAt node a).map (fun m => m.Content.length) ∧
      keyPathAt t a = keyPathAt node a ∧
      (nodeAt t a).map Node.fields = (nodeAt node a).map (fun m =>
        if keyPathAt node a = some path ∧ m.Kind = ScalarNode ∧ m.Tag = "!!str" then
          { m.fields with Value := replaced m.Value fullDNS, Style := DoubleQuotedStyle }
        else m.fields) := by
  refine ⟨_, findAndUpdateValue_eq_updated fullDNS path node hwf hp, ?_⟩
  intro a
  obtain ⟨h1, h2, h3⟩ := updated_at fullDNS a node path hp
  refine ⟨h2, h3, ?_⟩
  rw [h1]
  congr 1
  funext m
  by_cases hkp : keyPathAt node a = some path
  · by_cases hstr : m.Kind = ScalarNode ∧ m.Tag = "!!str"
    · rw [if_pos hkp, if_pos ⟨hkp, hstr⟩, updateTarget_of_str m _ hstr.1 hstr.2]
      rfl
    · rw [if_pos hkp, if_neg (fun hc => hstr hc.2), updateTarget_of_not_str m _ hstr]
  · rw [if_neg hkp, if_neg (fun hc => hkp hc.1)]

/-- C8 at `sampleDoc` and the path `kong.environment.SUPABASE_PUBLIC_URL`: the target gets
the new value and the double-quoted style, its other fields stay. -/
theorem C8_only_value_and_style_change_witness :
    WellFormed sampleDoc ∧
    ∃ t, findAndUpdateValue sampleDoc ["kong", "environment", "SUPABASE_PUBLIC_URL"]
        "lb-abc123.upcloudlb.com" = some t ∧
      (nodeAt t [1, 1, 1]).map Node.fields
        = some (strScalar DoubleQuotedStyle "http://lb-abc123.upcloudlb.com") ∧
      (nodeAt t [1, 1, 3]).map Node.fields = some (strScalar 0 "http://example.com") := by
  refine ⟨by decide, ?_⟩
  obtain ⟨t, ht, h⟩ := C8_only_value_and_style_change sampleDoc
    ["kong", "environment", "SUPABASE_PUBLIC_URL"] "lb-abc123.upcloudlb.com" (by decide)
    (by decide)
  refine ⟨t, ht, ?_, ?_⟩
  · rw [(h [1, 1, 1]).2.2]
    rfl
  · rw [(h [1, 1, 3]).2.2]
    rfl

/-- C9: on a well-formed tree and for a non-empty path the call returns, and every `!!str`
scalar found under the path gets the value
`ReplaceAll (ReplaceAll v "REPLACEME.upcloudlb.com" d) "example.com" d`; the second
substitution works on the result of the first: when `d` contains `example.com`, the copy
of `d` put in for an occurrence of `REPLACEME.upcloudlb.com` has that `example.com`
replaced by `d` again. -/
theorem C9_second_substitution_on_first_result (node : Node) (path : KeyPath)
    (fullDNS : String) (hwf : WellFormed node) (hp : path ≠ []) :
    (∃ t, findAndUpdateValue node path fullDNS = some t ∧
      ∀ (a : List Nat) (m : Node), nodeAt node a = some m → keyPathAt node a = some path →
        m.Kind = ScalarNode → m.Tag = "!!str" →
        ∃ m', nodeAt t a = some m' ∧
          m'.Value = ReplaceAll (ReplaceAll m.Value "REPLACEME.upcloudlb.com" fullDNS)
            "example.com" fullDNS) ∧
    (∀ x y pre suf : String, fullDNS = pre ++ "example.com" ++ suf →
      ReplaceAll (ReplaceAll (x ++ "REPLACEME.upcloudlb.com" ++ y) "REPLACEME.upcloudlb.com"
          fullDNS) "example.com" fullDNS
        = ReplaceAll (ReplaceAll x "REPLACEME.upcloudlb.com" fullDNS ++ pre) "example.com"
            fullDNS
          ++ fullDNS
          ++ ReplaceAll (suf ++ ReplaceAll y "REPLACEME.upcloudlb.com" fullDNS) "example.com"
            fullDNS) := by
  constructor
  · refine ⟨_, findAndUpdateValue_eq_updated fullDNS path node hwf hp, ?_⟩
    intro a m hm hkp hkind htag
    have h1 := (updated_at fullDNS a node path hp).1
    rw [hm] at h1
    simp only [Option.map_some', hkp, if_true] at h1
    obtain ⟨m', hm', hf⟩ := Option.map_eq_some'.mp h1
    refine ⟨m', hm', ?_⟩
    have := congrArg Node.Value hf
    rw [updateTarget_of_str m _ hkind htag] at this
    exact this
  · intro x y pre suf hd
    have hA := ReplaceAll_append_old x y placeholderA fullDNS placeholderA_data_ne
      placeholderA_unbordered
    have hB := ReplaceAll_append_old
      (ReplaceAll x "REPLACEME.upcloudlb.com" fullDNS ++ pre)
      (suf ++ ReplaceAll y "REPLACEME.upcloudlb.com" fullDNS) placeholderB fullDNS
      placeholderB_data_ne placeholderB_unbordered
    have hsplit : ∀ u w : String,
        u ++ fullDNS ++ w = u ++ pre ++ placeholderB ++ (suf ++ w) := by
      intro u w
      rw [hd]
      simp only [String.append_assoc]
      rfl
    have hre := hsplit (ReplaceAll x "REPLACEME.upcloudlb.com" fullDNS)
      (ReplaceAll y "REPLACEME.upcloudlb.com" fullDNS)
    show ReplaceAll (ReplaceAll (x ++ placeholderA ++ y) placeholderA fullDNS) placeholderB
      fullDNS = _
    rw [hA]
    show ReplaceAll (ReplaceAll x "REPLACEME.upcloudlb.com" fullDNS ++ fullDNS
          ++ ReplaceAll y "REPLACEME.upcloudlb.com" fullDNS) placeholderB fullDNS = _
    rw [hre, hB]
    rfl

/-- C9 with `fullDNS = example.com.upcloudlb.com`: the target
`http://REPLACEME.upcloudlb.com` ends as `http://example.com.upcloudlb.com.upcloudlb.com`,
the `example.com` of the name put in having been replaced by the name once more. -/
theorem C9_second_substitution_on_first_result_witness :
    WellFormed (kongDoc 0 "http://REPLACEME.upcloudlb.com") ∧
    (∃ t, findAndUpdateValue (kongDoc 0 "http://REPLACEME.upcloudlb.com")
        ["kong", "environment", "SUPABASE_PUBLIC_URL"] "example.com.upcloudlb.com" = some t ∧
      ∃ m', nodeAt t [1, 1, 1] = some m' ∧
        m'.Value = "http://example.com.upcloudlb.com.upcloudlb.com") ∧
    ReplaceAll (ReplaceAll ("http://" ++ "REPLACEME.upcloudlb.com" ++ "")
        "REPLACEME.upcloudlb.com" "example.com.upcloudlb.com") "example.com"
        "example.com.upcloudlb.com"
      = ReplaceAll (ReplaceAll "http://" "REPLACEME.upcloudlb.com" "example.com.upcloudlb.com"
            ++ "") "example.com" "example.com.upcloudlb.com"
        ++ "example.com.upcloudlb.com"
        ++ ReplaceAll (".upcloudlb.com"
            ++ ReplaceAll "" "REPLACEME.upcloudlb.com" "example.com.upcloudlb.com")
          "example.com" "example.com.upcloudlb.com" := by
  obtain ⟨⟨t, ht, h⟩, h2⟩ := C9_second_substitution_on_first_result
    (kongDoc 0 "http://REPLACEME.upcloudlb.com") ["kong", "environment", "SUPABASE_PUBLIC_URL"]
    "example.com.upcloudlb.com" (by decide) (by decide)
  refine ⟨by decide, ⟨t, ht, ?_⟩, ?_⟩
  · obtain ⟨m', h1, hv⟩ := h [1, 1, 1] (strScalar 0 "http://REPLACEME.upcloudlb.com") rfl
      (by decide) rfl rfl
    refine ⟨m', h1, ?_⟩
    rw [hv]
    decide
  · exact h2 "http://" "" "" ".upcloudlb.com" (by decide)

theorem callsInPairs_ne_nil (calls : Node → List KeyPath) (path : KeyPath)
    (hcalls : ∀ v, ∀ q ∈ calls v, q ≠ []) :
    ∀ l : List Node, ∀ q ∈ callsInPairs calls path l, q ≠ []
  | [], q, h => by simp [callsInPairs] at h
  | [_], q, h => by simp [callsInPairs] at h
  | k :: v :: rest, q, h => by
    have ih := callsInPairs_ne_nil calls path hcalls rest
    cases path with
    | nil => simp [callsInPairs] at h
    | cons seg tail =>
      simp only [callsInPairs] at h
      split at h
      · split at h
        · exact ih q h
        · rename_i hlen
          simp only [List.drop_succ_cons, List.drop_zero, List.cons_append, List.mem_cons,
            List.mem_append] at h
          rcases h with rfl | h | h
          · intro hnil
            subst hnil
            exact hlen rfl
          · exact hcalls v q h
          · exact ih q h
      · exact ih q h

theorem recursiveCalls_ne_nil : ∀ (path : KeyPath) (node : Node),
    ∀ q ∈ recursiveCalls node path, q ≠ []
  | [], _, q, h => by simp [recursiveCalls] at h
  | seg :: rest, node, q, h => by
    simp only [recursiveCalls] at h
    split at h
    · simp at h
    · exact callsInPairs_ne_nil _ _ (fun v => recursiveCalls_ne_nil rest v) _ q h

/-- C10: `findAndUpdateValue` is a total function (its recursion shortens the path); on a
tree in which every mapping node has an even number of children and for a non-empty path
it returns a tree, that is, none of `node.Content[i+1]` and `path[0]` is out of range;
every recursive call it makes gets a non-empty path; and each of the eight paths of
`targetFields` has three segments and is handled without a panic. -/
theorem C10_no_index_out_of_range (node : Node) (path : KeyPath) (fullDNS : String)
    (hwf : WellFormed node) (hp : path ≠ []) :
    (∃ t, findAndUpdateValue node path fullDNS = some t) ∧
    (∀ q ∈ recursiveCalls node path, q ≠ []) ∧
    (∀ p ∈ targetFields, p.length = 3 ∧ ∃ t, findAndUpdateValue node p fullDNS = some t) ∧
    (∃ t, applyPaths fullDNS targetFields node = some t) :=
  ⟨⟨_, findAndUpdateValue_eq_updated fullDNS path node hwf hp⟩,
    recursiveCalls_ne_nil path node,
    fun p hpm => ⟨by revert p; decide,
      ⟨_, findAndUpdateValue_eq_updated fullDNS p node hwf (targetFields_ne_nil p hpm)⟩⟩,
    ⟨_, applyPaths_eq_updatedAll fullDNS targetFields node hwf targetFields_ne_nil⟩⟩

/-- C10 at `sampleDoc` and `kong.environment.SUPABASE_PUBLIC_URL`: the call returns, after
two recursive calls on the shortened paths; a mapping with a single child and an empty
path are the two ways to a panic. -/
theorem C10_no_index_out_of_range_witness :
    WellFormed sampleDoc ∧
    (∃ t, findAndUpdateValue sampleDoc ["kong", "environment", "SUPABASE_PUBLIC_URL"]
      "lb-abc123.upcloudlb.com" = some t) ∧
    recursiveCalls sampleDoc ["kong", "environment", "SUPABASE_PUBLIC_URL"]
      = [["environment", "SUPABASE_PUBLIC_URL"], ["SUPABASE_PUBLIC_URL"]] ∧
    (findAndUpdateValue (mapping [strScalar 0 "a"]) ["a"] "lb-abc123.upcloudlb.com").isNone
      = true ∧
    (findAndUpdateValue sampleDoc [] "lb-abc123.upcloudlb.com").isNone = true := by
  refine ⟨by decide,
    (C10_no_index_out_of_range sampleDoc ["kong", "environment", "SUPABASE_PUBLIC_URL"]
      "lb-abc123.upcloudlb.com" (by decide) (by decide)).1, by decide, by decide, by decide⟩

end UpdateSupabaseDNS
